import Mathlib

/-!
Verification of the tracker reachability core of the randovania tracker
(`randovania/gui/tracker/tracker_core.py`) against its specification.

The repository excerpt contains the GUI glue (`TrackerWindow`); the resolver
engine it calls (`ResolverReach.calculate_reach`, `State`, requirement
evaluation, `node_by_identifier`, `path_to_node`) is not part of the excerpt,
so those components are modelled from the specification's component design
(spec §3, §4, §6).  Code that is present in `tracker_core.py`
(`apply_previous_state`, `state_for_current_configuration`,
`_collected_nodes`, the action-list handling) is embedded directly from the
source.

Conventions: nodes and resources are identified by natural numbers; a
resource ledger is a total function from resource to quantity (absent reads
as zero, spec §4.1); Python exceptions become `Option`/`Except` values.
-/

/-- Modelled from the spec: a Resource Ledger maps each resource to a
non-negative integer quantity; reading an absent resource yields zero, which
a total function from resource identifiers to `Nat` captures directly
(spec §3, §4.1). -/
def Ledger : Type := Nat → Nat

/-- Modelled from the spec: a Requirement is a tree of AND/OR combinators
over leaf atoms; each atom tests a resource's quantity against a threshold
with `>=`, and a negate wrapper inverts its child (spec §3, §4.2). -/
inductive Requirement : Type where
  | atom (resource threshold : Nat)
  | negate (child : Requirement)
  | reqAnd (children : List Requirement)
  | reqOr (children : List Requirement)

mutual

/-- Modelled from the spec: `evaluate(requirement, ledger) -> bool`.
AND short-circuits on first false child, OR on first true child, a leaf atom
compares `ledger.get(resource)` against its threshold with `>=`, a negate
wrapper inverts its child.  It is a pure total function: it cannot raise and
cannot mutate the ledger (spec §4.2). -/
def evaluate : Requirement → Ledger → Bool
  | .atom r t, led => decide (t ≤ led r)
  | .negate q, led => !(evaluate q led)
  | .reqAnd qs, led => evaluateAll qs led
  | .reqOr qs, led => evaluateAny qs led

/-- Conjunction over a requirement list: the empty AND is vacuously true. -/
def evaluateAll : List Requirement → Ledger → Bool
  | [], _ => true
  | q :: qs, led => evaluate q led && evaluateAll qs led

/-- Disjunction over a requirement list: the empty OR is vacuously false. -/
def evaluateAny : List Requirement → Ledger → Bool
  | [], _ => false
  | q :: qs, led => evaluate q led || evaluateAny qs led

end

mutual

/-- A requirement tree is negation-free when no `negate` wrapper occurs in
it; edge requirements of this shape are monotone in the ledger. -/
def negFree : Requirement → Bool
  | .atom _ _ => true
  | .negate _ => false
  | .reqAnd qs => negFreeAll qs
  | .reqOr qs => negFreeAll qs

/-- All requirements of a list are negation-free. -/
def negFreeAll : List Requirement → Bool
  | [] => true
  | q :: qs => negFree q && negFreeAll qs

end

mutual

/-- Negation-free requirements evaluate monotonically in the ledger. -/
theorem evaluate_mono (l l' : Ledger) (hl : ∀ r, l r ≤ l' r) :
    ∀ q : Requirement, negFree q = true → evaluate q l = true → evaluate q l' = true
  | .atom r t, _, h => by
      simp only [evaluate, decide_eq_true_eq] at h ⊢
      exact le_trans h (hl r)
  | .negate _, hnf, _ => by simp [negFree] at hnf
  | .reqAnd qs, hnf, h => by
      simp only [negFree] at hnf
      simpa only [evaluate] using evaluateAll_mono l l' hl qs hnf (by simpa [evaluate] using h)
  | .reqOr qs, hnf, h => by
      simp only [negFree] at hnf
      simpa only [evaluate] using evaluateAny_mono l l' hl qs hnf (by simpa [evaluate] using h)

/-- Monotonicity for conjunction lists of negation-free requirements. -/
theorem evaluateAll_mono (l l' : Ledger) (hl : ∀ r, l r ≤ l' r) :
    ∀ qs : List Requirement, negFreeAll qs = true →
      evaluateAll qs l = true → evaluateAll qs l' = true
  | [], _, _ => rfl
  | q :: qs, hnf, h => by
      simp only [negFreeAll, Bool.and_eq_true] at hnf
      simp only [evaluateAll, Bool.and_eq_true] at h ⊢
      exact ⟨evaluate_mono l l' hl q hnf.1 h.1, evaluateAll_mono l l' hl qs hnf.2 h.2⟩

/-- Monotonicity for disjunction lists of negation-free requirements. -/
theorem evaluateAny_mono (l l' : Ledger) (hl : ∀ r, l r ≤ l' r) :
    ∀ qs : List Requirement, negFreeAll qs = true →
      evaluateAny qs l = true → evaluateAny qs l' = true
  | q :: qs, hnf, h => by
      simp only [negFreeAll, Bool.and_eq_true] at hnf
      simp only [evaluateAny, Bool.or_eq_true] at h ⊢
      rcases h with h | h
      · exact Or.inl (evaluate_mono l l' hl q hnf.1 h)
      · exact Or.inr (evaluateAny_mono l l' hl qs hnf.2 h)

end

/-- Modelled from the spec: a directed edge of the world graph, annotated
with the Requirement gating its traversal (spec §3). -/
structure WGEdge : Type where
  src : Nat
  tgt : Nat
  req : Requirement

/-- Modelled from the spec: a resource node grants a resource gain on
collection, gated by its own collection Requirement (spec §3, §4.4). Each
gain entry is a (resource, quantity) pair with non-negative quantity. -/
structure WGResourceNode : Type where
  node : Nat
  gain : List (Nat × Nat)
  collectReq : Requirement

/-- Modelled from the spec: the static, read-only World Graph — nodes,
requirement-gated directed edges, the resource nodes among them, and the
identifier string of every node (spec §3, §4.3). -/
structure WorldGraph : Type where
  nodes : List Nat
  edges : List WGEdge
  resourceNodes : List WGResourceNode
  idents : List (Nat × String)

/-- Modelled from the spec: a State is a (current node, Resource Ledger)
pair (spec §3). -/
structure State : Type where
  node : Nat
  resources : Ledger

/-- Working data of one reachability pass: the set of reached nodes and the
backtracking parent pointers for path reconstruction; the start node has no
parent (spec §4.4). -/
structure ReachData : Type where
  reached : List Nat
  parent : List (Nat × Nat)
deriving DecidableEq

/-- Fold the candidate (target, source) pairs of one pass into the working
data: a target already reached is skipped, a new target is appended to the
reached list with its parent pointer recorded (spec §4.4). -/
def addNews (reached : List Nat) (parent : List (Nat × Nat)) :
    List (Nat × Nat) → ReachData
  | [] => ⟨reached, parent⟩
  | (t, s) :: rest =>
      if reached.contains t then addNews reached parent rest
      else addNews (reached ++ [t]) (parent ++ [(t, s)]) rest

/-- Candidate (target, source) pairs of one expansion step: targets of edges
whose source is already reached and whose Requirement evaluates true against
the current effective ledger (spec §4.4). -/
def cands (g : WorldGraph) (led : Ledger) (d : ReachData) : List (Nat × Nat) :=
  (g.edges.filter fun e => d.reached.contains e.src && evaluate e.req led).map
    fun e => (e.tgt, e.src)

/-- One worklist expansion step of the reachability pass (spec §4.4). -/
def expandStep (g : WorldGraph) (led : Ledger) (d : ReachData) : ReachData :=
  addNews d.reached d.parent (cands g led d)

/-- One full reachability pass under a fixed effective ledger: iterate the
expansion step enough times to exhaust the (bounded) world graph
(spec §4.4, §5). -/
def reachPassData (g : WorldGraph) (led : Ledger) (start : Nat) : ReachData :=
  (expandStep g led)^[g.nodes.length + 1] ⟨[start], []⟩

/-- Total quantity of resource `r` in one resource gain list. -/
def gainAmount (gain : List (Nat × Nat)) (r : Nat) : Nat :=
  ((gain.filter fun p => p.1 = r).map fun p => p.2).sum

/-- Modelled from the spec: total gain of resource `r` granted by the
credited resource nodes (spec §4.4). -/
def gainsOf (g : WorldGraph) (credited : List Nat) (r : Nat) : Nat :=
  (((g.resourceNodes.filter fun rn => credited.contains rn.node).map
    fun rn => gainAmount rn.gain r)).sum

/-- Modelled from the spec: the effective ledger is the base ledger plus the
grants of every resource node already proven reachable and collectible
(spec §4.4). -/
def effectiveLedger (base : Ledger) (g : WorldGraph) (credited : List Nat) : Ledger :=
  fun r => base r + gainsOf g credited r

/-- Modelled from the spec: one crediting pass of the fixpoint — run a full
reachability pass under the current effective ledger, then credit every
resource node that is reachable, whose collection requirement holds under
the effective ledger, and that is not yet credited (spec §4.4). -/
def creditStep (g : WorldGraph) (base : Ledger) (start : Nat)
    (credited : List Nat) : List Nat :=
  let led := effectiveLedger base g credited
  let reach := (reachPassData g led start).reached
  credited ++ (((g.resourceNodes.filter fun rn =>
      reach.contains rn.node && evaluate rn.collectReq led &&
        !credited.contains rn.node).map fun rn => rn.node).dedup)

/-- Fuel for the outer crediting fixpoint: at most one new resource node is
needed per pass, so the number of distinct resource nodes plus one passes
suffice (spec §5, §7: the iteration cap). -/
def creditFuel (g : WorldGraph) : Nat :=
  ((g.resourceNodes.map fun rn => rn.node).dedup).length + 1

/-- Modelled from the spec: the result of `calculate_reach` — the reached
node set (including the start), the parent map for path reconstruction, the
credited resource nodes and the final effective ledger (spec §4.4). -/
structure ReachResult : Type where
  start : Nat
  nodes : List Nat
  parent : List (Nat × Nat)
  credited : List Nat
  ledger : Ledger

/-- Modelled from the spec: `calculate_reach(world_graph, state)` — iterate
the crediting pass to its fixpoint, then report the reachability pass under
the final effective ledger (spec §4.4). -/
def calculate_reach (g : WorldGraph) (s : State) : ReachResult :=
  let credited := (creditStep g s.resources s.node)^[creditFuel g] []
  let led := effectiveLedger s.resources g credited
  let d := reachPassData g led s.node
  ⟨s.node, d.reached, d.parent, credited, led⟩

/-- First parent recorded for a node, if any (the start node has none). -/
def parentLookup (parent : List (Nat × Nat)) (n : Nat) : Option Nat :=
  (parent.find? fun q => q.1 = n).map fun q => q.2

/-- Walk the parent map backward from a node to the start, producing the
path in start-to-target order; `none` when the node has no recorded parent
chain within the given fuel (spec §4.4, §4.5). -/
def pathWalk (parent : List (Nat × Nat)) (start : Nat) :
    Nat → Nat → Option (List Nat)
  | 0, _ => none
  | fuel + 1, n =>
      if n = start then some [start]
      else
        match parentLookup parent n with
        | none => none
        | some p => (pathWalk parent start fuel p).map fun pre => pre ++ [n]

/-- Modelled from the spec: `path_to_node(reach_result, node)` walks the
parent map backward from the target to the start and reverses; it fails with
a NotReachable error if the target was never visited (spec §4.4, §4.5, §6,
§7). -/
def path_to_node (res : ReachResult) (n : Nat) : Except Unit (List Nat) :=
  match pathWalk res.parent res.start (res.parent.length + 1) n with
  | some p => .ok p
  | none => .error ()

/-- Modelled from the spec: `node_by_identifier(world_graph, string)`
resolves an identifier string to a node, or fails with a NotFound error —
here `none` (spec §4.3, §6, §7). -/
def node_by_identifier (g : WorldGraph) (ident : String) : Option Nat :=
  (g.idents.find? fun q => q.2 = ident).map fun q => q.1

/-- Identifier string persisted for a node: `node.identifier.as_string` in
`persist_current_state` (tracker_core.py lines 405-408). -/
def identOf (g : WorldGraph) (n : Nat) : String :=
  ((g.idents.find? fun q => q.1 = n).map fun q => q.2).getD ""

/-- The persisted record consumed by `apply_previous_state`: an ordered list
of node-identifier strings plus a starting-area identifier
(tracker_core.py lines 400-413, spec §6). -/
structure PersistedState : Type where
  actions : List String
  startingLocation : Option String

/-- Tracker-side session state relevant to the action log: the ordered list
of visited nodes (`TrackerWindow._actions`). -/
structure Tracker : Type where
  actions : List Nat
deriving DecidableEq

/-- Embedded from `TrackerWindow._add_new_actions` (tracker_core.py lines
274-278): append every node of the iterable to the action list. -/
def add_new_actions (t : Tracker) (nodes : List Nat) : Tracker :=
  ⟨t.actions ++ nodes⟩

/-- Embedded from `TrackerWindow.reset` (tracker_core.py lines 232-240):
pop actions while more than one remains, keeping the first (starting)
action. -/
def trackerReset (t : Tracker) : Tracker :=
  ⟨t.actions.take 1⟩

/-- Embedded from `TrackerWindow._undo_last_action` (tracker_core.py lines
280-283): unconditionally pop the last action. -/
def undo_last_action (t : Tracker) : Tracker :=
  ⟨t.actions.dropLast⟩

/-- Embedded from `TrackerWindow._refresh_for_new_action` (tracker_core.py
line 267): the undo button is enabled iff more than one action remains. -/
def undoEnabled (t : Tracker) : Bool :=
  decide (t.actions.length > 1)

/-- Resolve every identifier string of a persisted action list, failing as a
whole if any single identifier fails to resolve — the list comprehension of
`apply_previous_state` wrapped in try/except (tracker_core.py lines
198-209). -/
def resolveActions (g : WorldGraph) : List String → Option (List Nat)
  | [] => some []
  | ident :: rest =>
      match node_by_identifier g ident with
      | none => none
      | some n => (resolveActions g rest).map fun ns => n :: ns

/-- Embedded from `TrackerWindow.apply_previous_state` (tracker_core.py
lines 191-230): with no persisted record, report failure; resolve every
persisted identifier before mutating anything, reporting failure (with the
tracker untouched) if any identifier does not resolve; on success append the
resolved actions to the action list and report success. -/
def apply_previous_state (g : WorldGraph) (t : Tracker)
    (previousState : Option PersistedState) : Bool × Tracker :=
  match previousState with
  | none => (false, t)
  | some ps =>
      match resolveActions g ps.actions with
      | none => (false, t)
      | some acts => (true, add_new_actions t acts)

/-- Embedded from `TrackerWindow.configure` (tracker_core.py lines 180-189):
try to apply the persisted state; if that fails, fall back to a fresh
initial state and record the initial node as the first action. -/
def trackerConfigure (g : WorldGraph) (initialNode : Nat)
    (previousState : Option PersistedState) : Tracker :=
  let t0 : Tracker := ⟨[]⟩
  match apply_previous_state g t0 previousState with
  | (true, t) => t
  | (false, _) => add_new_actions t0 [initialNode]

/-- Embedded from `TrackerWindow.persist_current_state` (tracker_core.py
lines 400-413): persist each action as its node-identifier string. -/
def persist_current_state (g : WorldGraph) (t : Tracker) : List String :=
  t.actions.map fun n => identOf g n

/-- Embedded from `TrackerWindow._collected_nodes` (tracker_core.py lines
258-260): the set union of the starting nodes with the resource nodes among
the recorded actions, modelled as a duplicate-free list. -/
def collected_nodes (startingNodes : List Nat) (actions : List Nat)
    (isResourceNode : Nat → Bool) : List Nat :=
  (startingNodes ++ actions.filter isResourceNode).dedup

/-- Resource gain list of a node: the gain of its entry among the graph's
resource nodes, empty for a non-resource node. -/
def gainOfNode (g : WorldGraph) (n : Nat) : List (Nat × Nat) :=
  (((g.resourceNodes.find? fun rn => rn.node = n).map fun rn => rn.gain)).getD []

/-- Embedded from `State.resources.add_resource_gain`: fold one resource
gain list into a ledger entry by entry. -/
def addResourceGain (led : Ledger) (gain : List (Nat × Nat)) : Ledger :=
  gain.foldl (fun acc p => fun r => if r = p.1 then acc r + p.2 else acc r) led

/-- Embedded from the collected-nodes loop of
`TrackerWindow.state_for_current_configuration` (tracker_core.py lines
490-493): fold the resource gain of every collected node into the ledger,
one `add_resource_gain` call per collected node. -/
def codeReconstructLedger (g : WorldGraph) (base : Ledger)
    (startingNodes : List Nat) (actions : List Nat)
    (isResourceNode : Nat → Bool) : Ledger :=
  (collected_nodes startingNodes actions isResourceNode).foldl
    (fun led n => addResourceGain led (gainOfNode g n)) base

/-- Refinement reference for C7, following the claim's words: fold the
resource grants of the visited nodes into the ledger in order, one fold per
entry of the action list. -/
def claimReplayLedger (g : WorldGraph) (base : Ledger)
    (actions : List Nat) : Ledger :=
  actions.foldl (fun led n => addResourceGain led (gainOfNode g n)) base

/-- Embedded from `TrackerWindow._on_show_path_to_here` (tracker_core.py
lines 291-313): compute the reach, ask for the path to the node, and fall
back to the empty path when `path_to_node` fails. -/
def on_show_path_to_here (g : WorldGraph) (s : State) (n : Nat) : List Nat :=
  match path_to_node (calculate_reach g s) n with
  | .ok p => p
  | .error _ => []

/-- Embedded from `TrackerWindow.current_nodes_in_reach` (tracker_core.py
lines 343-350): the reach's node list with the state's current node added. -/
def current_nodes_in_reach (g : WorldGraph) (s : State) : List Nat :=
  let res := calculate_reach g s
  if s.node ∈ res.nodes then res.nodes else s.node :: res.nodes

/-- The everywhere-zero ledger. -/
def emptyLedger : Ledger := fun _ => 0

/-- Default state used for out-of-range heap reads in the heap model. -/
def defaultState : State := ⟨0, emptyLedger⟩

/-- Heap model for state aliasing: states live in a store addressed by
index, so that an "independent deep copy" (spec §6) is an allocation of a
fresh cell holding the same value, and in-place mutation is an update of one
cell. -/
def heapCopy (h : List State) (i : Nat) : List State × Nat :=
  (h ++ [h.getD i defaultState], h.length)

/-- In-place update of a stored state's current node (`state.node = ...`,
tracker_core.py line 481). -/
def heapSetNode (h : List State) (i n : Nat) : List State :=
  h.set i ⟨n, (h.getD i defaultState).resources⟩

/-- In-place fold of one resource gain into a stored state's ledger
(`state.resources.add_resource_gain(...)`, tracker_core.py lines 486-493). -/
def heapAddGain (h : List State) (i : Nat) (gain : List (Nat × Nat)) : List State :=
  h.set i ⟨(h.getD i defaultState).node,
    addResourceGain (h.getD i defaultState).resources gain⟩

/-- Embedded from `TrackerWindow.state_for_current_configuration`
(tracker_core.py lines 478-495), in the heap model: copy the initial state,
move the copy to the last action's node if any action exists, then fold in
the component fills, the collected pickups and the collected resource-node
gains — each modelled as a resource gain list applied to the copy. -/
def state_for_current_configuration (h : List State) (initialRef : Nat)
    (actions : List Nat) (componentGains pickupGains collectedGains :
      List (List (Nat × Nat))) : List State × Nat :=
  let allocated := heapCopy h initialRef
  let s := allocated.2
  let h2 := match actions.getLast? with
    | some n => heapSetNode allocated.1 s n
    | none => allocated.1
  let h3 := componentGains.foldl (fun acc gn => heapAddGain acc s gn) h2
  let h4 := pickupGains.foldl (fun acc gn => heapAddGain acc s gn) h3
  let h5 := collectedGains.foldl (fun acc gn => heapAddGain acc s gn) h4
  (h5, s)

/-- Tracker action lists reachable through the operations of the window:
initialization by `configure`, appending actions, reset, and undo — the
latter only while the undo button is enabled, since
`_refresh_for_new_action` enables the button exactly when more than one
action remains (tracker_core.py lines 180-189, 232-240, 266-283). -/
inductive TrackerReachable (g : WorldGraph) (initialNode : Nat) : Tracker → Prop where
  | init (previousState : Option PersistedState) :
      TrackerReachable g initialNode (trackerConfigure g initialNode previousState)
  | add (t : Tracker) (nodes : List Nat) : TrackerReachable g initialNode t →
      TrackerReachable g initialNode (add_new_actions t nodes)
  | reset (t : Tracker) : TrackerReachable g initialNode t →
      TrackerReachable g initialNode (trackerReset t)
  | undo (t : Tracker) : TrackerReachable g initialNode t →
      undoEnabled t = true →
      TrackerReachable g initialNode (undo_last_action t)

/-- Tracker action lists reachable when every restored persisted action log
is non-empty (the logs written by `persist_current_state` always are). -/
inductive TrackerReachableNE (g : WorldGraph) (initialNode : Nat) : Tracker → Prop where
  | init (previousState : Option PersistedState)
      (hne : ∀ ps, previousState = some ps → ps.actions ≠ []) :
      TrackerReachableNE g initialNode (trackerConfigure g initialNode previousState)
  | add (t : Tracker) (nodes : List Nat) : TrackerReachableNE g initialNode t →
      TrackerReachableNE g initialNode (add_new_actions t nodes)
  | reset (t : Tracker) : TrackerReachableNE g initialNode t →
      TrackerReachableNE g initialNode (trackerReset t)
  | undo (t : Tracker) : TrackerReachableNE g initialNode t →
      undoEnabled t = true →
      TrackerReachableNE g initialNode (undo_last_action t)

/-- Scenario graph of spec §8: node 0 (A, the start) has an edge to node 1
(B) requiring resource 0 (item X) at least 1, and an unconditional edge to
node 2 (C), a resource node granting one X with no collection requirement. -/
def exGraph : WorldGraph :=
  ⟨[0, 1, 2],
   [⟨0, 1, .atom 0 1⟩, ⟨0, 2, .reqAnd []⟩],
   [⟨2, [(0, 1)], .reqAnd []⟩],
   [(0, "W/A/A"), (1, "W/A/B"), (2, "W/A/C")]⟩

/-- Start state for the scenario graph: at node A with an empty ledger. -/
def exState : State := ⟨0, emptyLedger⟩

/-- Scenario graph of spec §8 with node C removed: only the gated edge from
A to B remains, so nothing beyond A is reachable from an empty ledger. -/
def exGraphNoC : WorldGraph :=
  ⟨[0, 1],
   [⟨0, 1, .atom 0 1⟩],
   [],
   [(0, "W/A/A"), (1, "W/A/B")]⟩

/-- Counterexample graph for ledger monotonicity: the single edge from node
0 to node 1 is gated by a negated requirement, satisfied only while resource
0 is absent. -/
def negGraph : WorldGraph :=
  ⟨[0, 1],
   [⟨0, 1, .negate (.atom 0 1)⟩],
   [],
   [(0, "W/A/A"), (1, "W/A/B")]⟩

/-- Ledger holding exactly one unit of resource 0. -/
def ledgerX : Ledger := fun r => if r = 0 then 1 else 0

theorem contains_iff (l : List Nat) (a : Nat) : l.contains a = true ↔ a ∈ l :=
  List.elem_iff

theorem addNews_reached_mem (n : Nat) :
    ∀ (c : List (Nat × Nat)) (r : List Nat) (p : List (Nat × Nat)),
      n ∈ (addNews r p c).reached ↔ n ∈ r ∨ ∃ q ∈ c, q.1 = n
  | [], r, p => by simp [addNews]
  | (t, s) :: rest, r, p => by
      by_cases h : r.contains t = true
      · rw [addNews, if_pos h, addNews_reached_mem n rest r p]
        constructor
        · rintro (hr | ⟨q, hq, hq1⟩)
          · exact Or.inl hr
          · exact Or.inr ⟨q, List.mem_cons_of_mem _ hq, hq1⟩
        · rintro (hr | ⟨q, hq, hq1⟩)
          · exact Or.inl hr
          · rcases List.mem_cons.mp hq with rfl | hq
            · exact Or.inl (hq1 ▸ (contains_iff r t).mp h)
            · exact Or.inr ⟨q, hq, hq1⟩
      · rw [addNews, if_neg h, addNews_reached_mem n rest (r ++ [t]) (p ++ [(t, s)])]
        simp only [List.mem_append, List.mem_singleton, List.mem_cons, List.not_mem_nil,
          or_false]
        constructor
        · rintro ((hr | rfl) | ⟨q, hq, hq1⟩)
          · exact Or.inl hr
          · exact Or.inr ⟨(n, s), Or.inl rfl, rfl⟩
          · exact Or.inr ⟨q, Or.inr hq, hq1⟩
        · rintro (hr | ⟨q, hq1 | hq, hq2⟩)
          · exact Or.inl (Or.inl hr)
          · subst hq1
            exact Or.inl (Or.inr hq2.symm)
          · exact Or.inr ⟨q, hq, hq2⟩

theorem mem_cands (g : WorldGraph) (led : Ledger) (d : ReachData) (q : Nat × Nat) :
    q ∈ cands g led d ↔
      ∃ e ∈ g.edges, e.src ∈ d.reached ∧ evaluate e.req led = true ∧
        e.tgt = q.1 ∧ e.src = q.2 := by
  simp only [cands, List.mem_map, List.mem_filter, Bool.and_eq_true, contains_iff]
  constructor
  · rintro ⟨e, ⟨he, hsrc, hev⟩, rfl⟩
    exact ⟨e, he, hsrc, hev, rfl, rfl⟩
  · rintro ⟨e, he, hsrc, hev, h1, h2⟩
    refine ⟨e, ⟨he, hsrc, hev⟩, ?_⟩
    rw [h1, h2]

theorem mem_expandStep (g : WorldGraph) (led : Ledger) (d : ReachData) (n : Nat) :
    n ∈ (expandStep g led d).reached ↔
      n ∈ d.reached ∨
        ∃ e ∈ g.edges, e.src ∈ d.reached ∧ evaluate e.req led = true ∧ e.tgt = n := by
  rw [expandStep, addNews_reached_mem]
  constructor
  · rintro (hr | ⟨q, hq, rfl⟩)
    · exact Or.inl hr
    · rcases (mem_cands g led d q).mp hq with ⟨e, he, hsrc, hev, h1, _⟩
      exact Or.inr ⟨e, he, hsrc, hev, h1⟩
  · rintro (hr | ⟨e, he, hsrc, hev, h1⟩)
    · exact Or.inl hr
    · refine Or.inr ⟨(e.tgt, e.src), (mem_cands g led d _).mpr ⟨e, he, hsrc, hev, rfl, rfl⟩, h1⟩

theorem mem_of_mem_expandStep (g : WorldGraph) (led : Ledger) (d : ReachData)
    (n : Nat) (h : n ∈ d.reached) : n ∈ (expandStep g led d).reached :=
  (mem_expandStep g led d n).mpr (Or.inl h)

theorem start_mem_iterate (g : WorldGraph) (led : Ledger) (start : Nat) :
    ∀ k, start ∈ ((expandStep g led)^[k] ⟨[start], []⟩).reached := by
  intro k
  induction k with
  | zero => exact List.mem_singleton_self start
  | succ k ih =>
      rw [Function.iterate_succ_apply']
      exact mem_of_mem_expandStep _ _ _ _ ih

/-- C2: the node set returned by `calculate_reach(world_graph, state)`
always contains the start node `state.node`: every expansion step only adds
nodes to the reached list seeded with the start node. -/
theorem calculate_reach_contains_start (g : WorldGraph) (s : State) :
    s.node ∈ (calculate_reach g s).nodes :=
  start_mem_iterate g _ s.node (g.nodes.length + 1)

/-- C8: requirement evaluation is a pure total function of the requirement
tree and the ledger — it cannot raise and cannot mutate the ledger — and on
the boundary cases: the empty AND is true, the empty OR is false, and a leaf
atom holds exactly when the ledger quantity is at least the threshold, so a
quantity exactly equal to the threshold satisfies the atom. -/
theorem evaluate_boundary (led : Ledger) (r t : Nat) :
    evaluate (.reqAnd []) led = true ∧
    evaluate (.reqOr []) led = false ∧
    (evaluate (.atom r t) led = true ↔ t ≤ led r) ∧
    (led r = t → evaluate (.atom r t) led = true) := by
  refine ⟨rfl, rfl, by simp [evaluate], ?_⟩
  intro h
  simp [evaluate, h]

/-- Witness for C8 at a concrete input: resource 0 is held with quantity 1,
exactly equal to the atom's threshold, and the atom evaluates true. -/
theorem evaluate_boundary_witness :
    ledgerX 0 = 1 ∧ evaluate (.atom 0 1) ledgerX = true :=
  ⟨rfl, (evaluate_boundary ledgerX 0 1).2.2.2 rfl⟩

/-- Negation-freedom of every edge requirement and every resource node's
collection requirement of a world graph. -/
def graphNegFree (g : WorldGraph) : Bool :=
  (g.edges.all fun e => negFree e.req) &&
    (g.resourceNodes.all fun rn => negFree rn.collectReq)

theorem expandStep_reached_mono (g : WorldGraph) (led led' : Ledger)
    (d d' : ReachData) (hl : ∀ r, led r ≤ led' r)
    (hnf : (g.edges.all fun e => negFree e.req) = true)
    (hsub : ∀ n, n ∈ d.reached → n ∈ d'.reached) :
    ∀ n, n ∈ (expandStep g led d).reached → n ∈ (expandStep g led' d').reached := by
  intro n hn
  rw [mem_expandStep] at hn ⊢
  rcases hn with hr | ⟨e, he, hsrc, hev, h1⟩
  · exact Or.inl (hsub n hr)
  · refine Or.inr ⟨e, he, hsub _ hsrc, ?_, h1⟩
    exact evaluate_mono led led' hl e.req (by simpa using List.all_eq_true.mp hnf e he) hev

theorem iterate_reached_mono (g : WorldGraph) (led led' : Ledger)
    (hl : ∀ r, led r ≤ led' r)
    (hnf : (g.edges.all fun e => negFree e.req) = true) (start : Nat) :
    ∀ k n, n ∈ ((expandStep g led)^[k] ⟨[start], []⟩).reached →
      n ∈ ((expandStep g led')^[k] ⟨[start], []⟩).reached := by
  intro k
  induction k with
  | zero => exact fun n h => h
  | succ k ih =>
      rw [Function.iterate_succ_apply', Function.iterate_succ_apply']
      exact expandStep_reached_mono g led led' _ _ hl hnf ih

theorem reachPass_reached_mono (g : WorldGraph) (led led' : Ledger)
    (hl : ∀ r, led r ≤ led' r)
    (hnf : (g.edges.all fun e => negFree e.req) = true) (start : Nat) :
    ∀ n, n ∈ (reachPassData g led start).reached →
      n ∈ (reachPassData g led' start).reached :=
  iterate_reached_mono g led led' hl hnf start (g.nodes.length + 1)

theorem sum_le_of_sublist : ∀ {l m : List Nat}, List.Sublist l m → l.sum ≤ m.sum := by
  intro l m h
  induction h with
  | slnil => exact Nat.le_refl 0
  | cons a _ ih => simpa using le_trans ih (Nat.le_add_left _ a)
  | cons₂ a _ ih => simpa using Nat.add_le_add_left ih a

theorem gainsOf_mono (g : WorldGraph) (c c' : List Nat)
    (hsub : ∀ n, n ∈ c → n ∈ c') (r : Nat) : gainsOf g c r ≤ gainsOf g c' r := by
  unfold gainsOf
  refine sum_le_of_sublist (List.Sublist.map _ ?_)
  refine List.monotone_filter_right _ ?_
  intro rn hrn
  exact (contains_iff _ _).mpr (hsub _ ((contains_iff _ _).mp hrn))

theorem effectiveLedger_mono (g : WorldGraph) (b b' : Ledger) (c c' : List Nat)
    (hb : ∀ r, b r ≤ b' r) (hsub : ∀ n, n ∈ c → n ∈ c') :
    ∀ r, effectiveLedger b g c r ≤ effectiveLedger b' g c' r := by
  intro r
  exact Nat.add_le_add (hb r) (gainsOf_mono g c c' hsub r)

theorem creditStep_mono (g : WorldGraph) (b b' : Ledger) (start : Nat)
    (c c' : List Nat) (hb : ∀ r, b r ≤ b' r) (hnf : graphNegFree g = true)
    (hsub : ∀ n, n ∈ c → n ∈ c') :
    ∀ n, n ∈ creditStep g b start c → n ∈ creditStep g b' start c' := by
  have hnfe : (g.edges.all fun e => negFree e.req) = true :=
    (Bool.and_eq_true _ _ |>.mp hnf).1
  have hnfr : (g.resourceNodes.all fun rn => negFree rn.collectReq) = true :=
    (Bool.and_eq_true _ _ |>.mp hnf).2
  have hled : ∀ r, effectiveLedger b g c r ≤ effectiveLedger b' g c' r :=
    effectiveLedger_mono g b b' c c' hb hsub
  intro n hn
  rcases List.mem_append.mp hn with hc | hbatch
  · exact List.mem_append.mpr (Or.inl (hsub n hc))
  · rcases List.mem_map.mp (List.mem_dedup.mp hbatch) with ⟨rn, hrn, rfl⟩
    rcases List.mem_filter.mp hrn with ⟨hrnm, hcond⟩
    simp only [Bool.and_eq_true, contains_iff, Bool.not_eq_true'] at hcond
    obtain ⟨⟨hreach, hev⟩, _⟩ := hcond
    by_cases hc' : rn.node ∈ c'
    · exact List.mem_append.mpr (Or.inl hc')
    · refine List.mem_append.mpr (Or.inr (List.mem_dedup.mpr (List.mem_map.mpr
        ⟨rn, List.mem_filter.mpr ⟨hrnm, ?_⟩, rfl⟩)))
      simp only [Bool.and_eq_true, contains_iff, Bool.not_eq_true']
      refine ⟨⟨?_, ?_⟩, by simpa using hc'⟩
      · exact reachPass_reached_mono g _ _ hled hnfe start _ hreach
      · exact evaluate_mono _ _ hled rn.collectReq
          (by simpa using List.all_eq_true.mp hnfr rn hrnm) hev

theorem credited_iterate_mono (g : WorldGraph) (b b' : Ledger) (start : Nat)
    (hb : ∀ r, b r ≤ b' r) (hnf : graphNegFree g = true) :
    ∀ k n, n ∈ (creditStep g b start)^[k] [] →
      n ∈ (creditStep g b' start)^[k] [] := by
  intro k
  induction k with
  | zero => exact fun n h => h
  | succ k ih =>
      rw [Function.iterate_succ_apply', Function.iterate_succ_apply']
      exact creditStep_mono g b b' start _ _ hb hnf ih

/-- C3 amended: reach is monotone in the ledger for world graphs whose edge
and collection requirements are negation-free: with the same current node
and a pointwise-superset ledger, every node reached from the smaller state
is reached from the larger one.  (With a `negate` wrapper, spec §4.2, a
larger ledger can close an edge, so the unconditional claim fails — see the
counterexample.) -/
theorem calculate_reach_mono (g : WorldGraph) (s s' : State)
    (hnf : graphNegFree g = true) (hnode : s.node = s'.node)
    (hl : ∀ r, s.resources r ≤ s'.resources r) :
    ∀ n, n ∈ (calculate_reach g s).nodes → n ∈ (calculate_reach g s').nodes := by
  have hnfe : (g.edges.all fun e => negFree e.req) = true :=
    (Bool.and_eq_true _ _ |>.mp hnf).1
  intro n hn
  have hcred : ∀ m, m ∈ (creditStep g s.resources s.node)^[creditFuel g] [] →
      m ∈ (creditStep g s'.resources s'.node)^[creditFuel g] [] := by
    rw [← hnode]
    exact credited_iterate_mono g s.resources s'.resources s.node hl hnf (creditFuel g)
  have hled : ∀ r,
      effectiveLedger s.resources g ((creditStep g s.resources s.node)^[creditFuel g] []) r ≤
      effectiveLedger s'.resources g ((creditStep g s'.resources s'.node)^[creditFuel g] []) r :=
    effectiveLedger_mono g s.resources s'.resources _ _ hl hcred
  have := reachPass_reached_mono g _ _ hled hnfe s.node n hn
  rw [hnode] at this
  exact this

/-- C3 counterexample: on the graph whose single edge is gated by a negated
requirement, the state holding resource 0 has a pointwise-superset ledger
and the same current node as the empty-ledger state, yet node 1 is reachable
only from the empty-ledger state — so reach is not monotone in the ledger as
claimed. -/
theorem calculate_reach_mono_cex :
    (∀ r, (State.mk 0 emptyLedger).resources r ≤ (State.mk 0 ledgerX).resources r) ∧
    (State.mk 0 emptyLedger).node = (State.mk 0 ledgerX).node ∧
    1 ∈ (calculate_reach negGraph (State.mk 0 emptyLedger)).nodes ∧
    1 ∉ (calculate_reach negGraph (State.mk 0 ledgerX)).nodes :=
  ⟨fun r => Nat.zero_le _, rfl, by decide, by decide⟩

/-- Witness for C3 (amended) at a concrete input: the scenario graph is
negation-free, and node 0 reached from the empty ledger is also reached
from the larger ledger holding resource 0. -/
theorem calculate_reach_mono_witness :
    graphNegFree exGraph = true ∧ 0 ∈ (calculate_reach exGraph (State.mk 0 ledgerX)).nodes :=
  ⟨by decide, calculate_reach_mono exGraph exState (State.mk 0 ledgerX) (by decide) rfl
    (fun r => Nat.zero_le _) 0 (by decide)⟩

/-- Keys of a parent map: the nodes that were given a parent pointer. -/
def keyList (p : List (Nat × Nat)) : List Nat := p.map Prod.fst

/-- A parent map is progressive when every recorded parent is the start node
or a key recorded strictly earlier — so every backward walk reaches the
start. -/
def progressive (start : Nat) (p : List (Nat × Nat)) : Prop :=
  ∀ i (h : i < p.length), (p[i]).2 ∈ start :: keyList (p.take i)

/-- Structural invariant of the reachability pass: the reached list is the
start node followed by the parent-map keys, it has no duplicates, and the
parent map is progressive. -/
def RInv (start : Nat) (d : ReachData) : Prop :=
  d.reached = start :: keyList d.parent ∧ d.reached.Nodup ∧ progressive start d.parent

theorem addNews_rinv (start : Nat) :
    ∀ (c : List (Nat × Nat)) (r : List Nat) (p : List (Nat × Nat)),
      r = start :: keyList p → r.Nodup → progressive start p →
      (∀ q ∈ c, q.2 ∈ r) → RInv start (addNews r p c)
  | [], _, _, h1, h2, h3, _ => ⟨h1, h2, h3⟩
  | (t, s) :: rest, r, p, h1, h2, h3, h4 => by
      by_cases hc : r.contains t = true
      · rw [addNews, if_pos hc]
        exact addNews_rinv start rest r p h1 h2 h3
          fun q hq => h4 q (List.mem_cons_of_mem _ hq)
      · rw [addNews, if_neg hc]
        have htr : t ∉ r := fun hm => hc ((contains_iff r t).mpr hm)
        apply addNews_rinv start rest (r ++ [t]) (p ++ [(t, s)])
        · rw [h1]
          simp [keyList, List.cons_append]
        · rw [List.nodup_append]
          refine ⟨h2, List.nodup_singleton t, ?_⟩
          intro a ha hat
          rw [List.mem_singleton] at hat
          exact htr (hat ▸ ha)
        · intro i hi
          rw [List.length_append, List.length_singleton] at hi
          rcases Nat.lt_succ_iff_lt_or_eq.mp hi with hlt | heq
          · rw [List.take_append_of_le_length (Nat.le_of_lt hlt),
              List.getElem_append_left hlt]
            exact h3 i hlt
          · subst heq
            rw [List.getElem_concat_length p (t, s) p.length rfl (by simp), List.take_left]
            have := h4 (t, s) (List.mem_cons_self _ _)
            rw [h1] at this
            exact this
        · intro q hq
          exact List.mem_append_left _ (h4 q (List.mem_cons_of_mem _ hq))

theorem rinv_expandStep (g : WorldGraph) (led : Ledger) (start : Nat)
    (d : ReachData) (h : RInv start d) : RInv start (expandStep g led d) := by
  obtain ⟨h1, h2, h3⟩ := h
  apply addNews_rinv start _ _ _ h1 h2 h3
  intro q hq
  rcases (mem_cands g led d q).mp hq with ⟨e, _, hsrc, _, _, h5⟩
  exact h5 ▸ hsrc

theorem rinv_iterate (g : WorldGraph) (led : Ledger) (start : Nat) :
    ∀ k, RInv start ((expandStep g led)^[k] ⟨[start], []⟩) := by
  intro k
  induction k with
  | zero =>
      refine ⟨rfl, List.nodup_singleton start, ?_⟩
      intro i hi
      simp at hi
  | succ k ih =>
      rw [Function.iterate_succ_apply']
      exact rinv_expandStep g led start _ ih

theorem rinv_reachPass (g : WorldGraph) (led : Ledger) (start : Nat) :
    RInv start (reachPassData g led start) :=
  rinv_iterate g led start (g.nodes.length + 1)

/-- Well-formedness of a world graph: every edge target is a node of the
graph (spec §3: edges connect nodes of the graph). -/
def wfGraph (g : WorldGraph) : Bool :=
  g.edges.all fun e => g.nodes.contains e.tgt

theorem iterate_reached_closure (g : WorldGraph) (led : Ledger) (start : Nat)
    (hwf : wfGraph g = true) :
    ∀ k n, n ∈ ((expandStep g led)^[k] ⟨[start], []⟩).reached →
      n ∈ start :: g.nodes := by
  intro k
  induction k with
  | zero =>
      intro n hn
      simp only [Function.iterate_zero, id_eq] at hn
      rw [List.mem_singleton] at hn
      exact hn ▸ List.mem_cons_self _ _
  | succ k ih =>
      rw [Function.iterate_succ_apply']
      intro n hn
      rcases (mem_expandStep g led _ n).mp hn with hr | ⟨e, he, _, _, h1⟩
      · exact ih n hr
      · refine List.mem_cons_of_mem _ ?_
        exact h1 ▸ (contains_iff _ _).mp (List.all_eq_true.mp hwf e he)

theorem addNews_reached_length_le :
    ∀ (c : List (Nat × Nat)) (r : List Nat) (p : List (Nat × Nat)),
      r.length ≤ (addNews r p c).reached.length
  | [], _, _ => Nat.le_refl _
  | (t, s) :: rest, r, p => by
      by_cases hc : r.contains t = true
      · rw [addNews, if_pos hc]
        exact addNews_reached_length_le rest r p
      · rw [addNews, if_neg hc]
        refine le_trans ?_ (addNews_reached_length_le rest (r ++ [t]) (p ++ [(t, s)]))
        simp

theorem addNews_eq_or_lt :
    ∀ (c : List (Nat × Nat)) (r : List Nat) (p : List (Nat × Nat)),
      addNews r p c = ⟨r, p⟩ ∨ r.length < (addNews r p c).reached.length
  | [], _, _ => Or.inl rfl
  | (t, s) :: rest, r, p => by
      by_cases hc : r.contains t = true
      · rw [addNews, if_pos hc]
        exact addNews_eq_or_lt rest r p
      · rw [addNews, if_neg hc]
        refine Or.inr (lt_of_lt_of_le ?_ (addNews_reached_length_le rest (r ++ [t]) (p ++ [(t, s)])))
        simp

theorem expandStep_eq_or_lt (g : WorldGraph) (led : Ledger) (d : ReachData) :
    expandStep g led d = d ∨ d.reached.length < (expandStep g led d).reached.length := by
  rcases addNews_eq_or_lt (cands g led d) d.reached d.parent with h | h
  · left
    rw [expandStep, h]
  · exact Or.inr h

theorem iterate_fixed_of_bounded {α : Type} (f : α → α) (μ : α → Nat) (B : Nat)
    (a : α) (hb : ∀ k, μ (f^[k] a) ≤ B)
    (hstep : ∀ x, f x = x ∨ μ x < μ (f x))
    (n : Nat) (hn : B < n + μ a) :
    f (f^[n] a) = f^[n] a := by
  by_contra hne
  have key : ∀ k, k ≤ n → μ a + k ≤ μ (f^[k] a) := by
    intro k
    induction k with
    | zero => intro _; simp
    | succ k ih =>
        intro hk
        have hk' : k ≤ n := Nat.le_of_succ_le hk
        have h1 := ih hk'
        rcases hstep (f^[k] a) with heq | hlt
        · exfalso
          apply hne
          have h2 : f^[n] a = f^[k] a := by
            have hs : n = (n - k) + k := (Nat.sub_add_cancel hk').symm
            rw [hs, Function.iterate_add_apply]
            exact Function.iterate_fixed heq (n - k)
          rw [h2]
          exact heq
        · have h3 : μ (f^[k + 1] a) = μ (f (f^[k] a)) := by
            rw [Function.iterate_succ_apply']
          omega
  have h4 := key n le_rfl
  have h5 := hb n
  omega

theorem nodup_length_le_dedup (l m : List Nat) (hn : l.Nodup)
    (hs : ∀ x ∈ l, x ∈ m) : l.length ≤ m.dedup.length := by
  have h1 : l ⊆ m.dedup := fun x hx => List.mem_dedup.mpr (hs x hx)
  exact (List.subperm_of_subset hn h1).length_le

theorem reachPass_stable (g : WorldGraph) (led : Ledger) (start : Nat)
    (hwf : wfGraph g = true) :
    expandStep g led (reachPassData g led start) = reachPassData g led start := by
  apply iterate_fixed_of_bounded (expandStep g led) (fun d => d.reached.length)
      ((start :: g.nodes).dedup.length) ⟨[start], []⟩
  · intro k
    exact nodup_length_le_dedup _ _ (rinv_iterate g led start k).2.1
      (iterate_reached_closure g led start hwf k)
  · exact expandStep_eq_or_lt g led
  · have h1 := List.Sublist.length_le (List.dedup_sublist (start :: g.nodes))
    simp only [List.length_cons] at h1
    simp only [List.length_singleton]
    omega

theorem creditStep_def (g : WorldGraph) (b : Ledger) (start : Nat) (c : List Nat) :
    creditStep g b start c =
      c ++ ((g.resourceNodes.filter fun rn =>
        (reachPassData g (effectiveLedger b g c) start).reached.contains rn.node &&
          evaluate rn.collectReq (effectiveLedger b g c) &&
          !c.contains rn.node).map fun rn => rn.node).dedup := rfl

theorem creditStep_nodup (g : WorldGraph) (b : Ledger) (start : Nat)
    (c : List Nat) (h : c.Nodup) : (creditStep g b start c).Nodup := by
  rw [creditStep_def, List.nodup_append]
  refine ⟨h, List.nodup_dedup _, ?_⟩
  intro a hac habatch
  rcases List.mem_map.mp (List.mem_dedup.mp habatch) with ⟨rn, hrn, rfl⟩
  rcases List.mem_filter.mp hrn with ⟨_, hcond⟩
  simp only [Bool.and_eq_true, contains_iff, Bool.not_eq_true'] at hcond
  exact absurd ((contains_iff _ _).mpr hac) (by simpa using hcond.2)

theorem creditStep_subset_ids (g : WorldGraph) (b : Ledger) (start : Nat)
    (c : List Nat) (h : ∀ n ∈ c, n ∈ g.resourceNodes.map fun rn => rn.node) :
    ∀ n ∈ creditStep g b start c, n ∈ g.resourceNodes.map fun rn => rn.node := by
  intro n hn
  rw [creditStep_def] at hn
  rcases List.mem_append.mp hn with hc | hbatch
  · exact h n hc
  · rcases List.mem_map.mp (List.mem_dedup.mp hbatch) with ⟨rn, hrn, rfl⟩
    exact List.mem_map.mpr ⟨rn, (List.mem_filter.mp hrn).1, rfl⟩

theorem credited_iterate_nodup (g : WorldGraph) (b : Ledger) (start : Nat) :
    ∀ k, ((creditStep g b start)^[k] ([] : List Nat)).Nodup := by
  intro k
  induction k with
  | zero => exact List.nodup_nil
  | succ k ih =>
      rw [Function.iterate_succ_apply']
      exact creditStep_nodup g b start _ ih

theorem credited_iterate_subset (g : WorldGraph) (b : Ledger) (start : Nat) :
    ∀ k n, n ∈ (creditStep g b start)^[k] ([] : List Nat) →
      n ∈ g.resourceNodes.map fun rn => rn.node := by
  intro k
  induction k with
  | zero =>
      intro n hn
      simp only [Function.iterate_zero, id_eq] at hn
      exact absurd hn (List.not_mem_nil n)
  | succ k ih =>
      rw [Function.iterate_succ_apply']
      exact creditStep_subset_ids g b start _ ih

theorem creditStep_eq_or_lt (g : WorldGraph) (b : Ledger) (start : Nat)
    (c : List Nat) :
    creditStep g b start c = c ∨ c.length < (creditStep g b start c).length := by
  rw [creditStep_def]
  rcases hx : ((g.resourceNodes.filter fun rn =>
      (reachPassData g (effectiveLedger b g c) start).reached.contains rn.node &&
        evaluate rn.collectReq (effectiveLedger b g c) &&
        !c.contains rn.node).map fun rn => rn.node).dedup with _ | ⟨a, rest⟩
  · left
    rw [hx, List.append_nil]
  · right
    rw [hx]
    simp

theorem creditStep_stable (g : WorldGraph) (b : Ledger) (start : Nat) :
    creditStep g b start ((creditStep g b start)^[creditFuel g] []) =
      (creditStep g b start)^[creditFuel g] [] := by
  apply iterate_fixed_of_bounded (creditStep g b start) List.length
      ((g.resourceNodes.map fun rn => rn.node).dedup.length) []
  · intro k
    exact nodup_length_le_dedup _ _ (credited_iterate_nodup g b start k)
      (credited_iterate_subset g b start k)
  · exact creditStep_eq_or_lt g b start
  · simp [creditFuel]

/-- C1: `calculate_reach` computes the fixpoint of reachability with
resource crediting.  First, in general (for well-formed graphs): the
returned result is stable — one more crediting pass credits no further
resource gain, and one more expansion pass under the final effective ledger
adds no further node, which is exactly the termination condition "a full
pass adds neither new reachable nodes nor newly-creditable gains".  Second,
on the scenario graph (start node 0 = A, node 1 = B behind an edge
requiring resource 0 = X at least 1, node 2 = C an unconditionally
reachable resource node granting X), `calculate_reach` from A returns
exactly the node set containing A, C and B: the first pass reaches A and C,
crediting C's gain of X unlocks the edge to B on the second pass. -/
theorem calculate_reach_fixpoint :
    (∀ (g : WorldGraph) (s : State), wfGraph g = true →
      creditStep g s.resources s.node (calculate_reach g s).credited =
          (calculate_reach g s).credited ∧
        expandStep g (calculate_reach g s).ledger
            ⟨(calculate_reach g s).nodes, (calculate_reach g s).parent⟩ =
          ⟨(calculate_reach g s).nodes, (calculate_reach g s).parent⟩) ∧
    (calculate_reach exGraph exState).nodes.Perm [0, 2, 1] := by
  constructor
  · intro g s hwf
    exact ⟨creditStep_stable g s.resources s.node,
      reachPass_stable g _ s.node hwf⟩
  · decide

/-- Witness for the general part of C1 at a concrete input: the scenario
graph is well-formed, and the credited set returned there is stable under
one more crediting pass. -/
theorem calculate_reach_fixpoint_witness :
    wfGraph exGraph = true ∧
      creditStep exGraph exState.resources exState.node
          (calculate_reach exGraph exState).credited =
        (calculate_reach exGraph exState).credited :=
  ⟨by decide, (calculate_reach_fixpoint.1 exGraph exState (by decide)).1⟩


theorem lookup_getElem :
    ∀ (p : List (Nat × Nat)), (keyList p).Nodup →
      ∀ i (h : i < p.length), parentLookup p ((p[i]).1) = some ((p[i]).2)
  | [], _, i, h => absurd h (by simp)
  | a :: rest, hk, i, h => by
      have hkc : (a.1 :: keyList rest).Nodup := hk
      have hk1 : a.1 ∉ keyList rest := (List.nodup_cons.mp hkc).1
      have hk2 : (keyList rest).Nodup := (List.nodup_cons.mp hkc).2
      cases i with
      | zero =>
          show parentLookup (a :: rest) a.1 = some a.2
          unfold parentLookup
          rw [List.find?_cons_of_pos _ (by simp)]
          rfl
      | succ i =>
          have hi : i < rest.length := by simpa using h
          have hne : ¬a.1 = (rest[i]).1 := by
            intro heq
            apply hk1
            rw [heq]
            exact List.mem_map_of_mem Prod.fst (List.getElem_mem hi)
          show parentLookup (a :: rest) ((a :: rest)[i + 1]).1 = _
          simp only [List.getElem_cons_succ]
          unfold parentLookup
          rw [List.find?_cons_of_neg _ (by simpa using hne)]
          have hrec := lookup_getElem rest hk2 i hi
          unfold parentLookup at hrec
          exact hrec

theorem pathWalk_isSome (p : List (Nat × Nat)) (start : Nat)
    (hk : (start :: keyList p).Nodup) (hprog : progressive start p) :
    ∀ i, ∀ (h : i < p.length) (fuel : Nat), i + 2 ≤ fuel →
      (pathWalk p start fuel ((p[i]).1)).isSome = true := by
  have hstartnot : start ∉ keyList p := (List.nodup_cons.mp hk).1
  have hkn : (keyList p).Nodup := (List.nodup_cons.mp hk).2
  intro i
  induction i using Nat.strong_induction_on with
  | _ i ih =>
      intro h fuel hfuel
      obtain ⟨f, rfl⟩ : ∃ f, fuel = f + 1 := ⟨fuel - 1, by omega⟩
      have hne : ¬(p[i]).1 = start := by
        intro heq
        exact hstartnot (heq ▸ List.mem_map_of_mem Prod.fst (List.getElem_mem h))
      simp only [pathWalk, if_neg hne, lookup_getElem p hkn i h]
      rcases List.mem_cons.mp (hprog i h) with hstart | hmem
      · rw [hstart]
        obtain ⟨f2, rfl⟩ : ∃ f2, f = f2 + 1 := ⟨f - 1, by omega⟩
        simp [pathWalk]
      · rcases List.mem_map.mp hmem with ⟨q, hq, hq1⟩
        rcases List.mem_iff_getElem.mp hq with ⟨j, hj, hjq⟩
        have hji : j < i := by
          have hj2 := hj
          simp only [List.length_take] at hj2
          omega
        have hjlen : j < p.length := lt_of_lt_of_le hji (Nat.le_of_lt h)
        have hq2 : (p[j]).1 = (p[i]).2 := by
          have ht : (p.take i)[j] = p[j] := List.getElem_take p
          rw [← hq1, ← hjq, ht]
        rw [Option.isSome_map']
        rw [← hq2]
        exact ih j hji hjlen f (by omega)

theorem pathWalk_none_of_not_mem (p : List (Nat × Nat)) (start n : Nat)
    (hn1 : ¬n = start) (hn2 : n ∉ keyList p) (fuel : Nat) :
    pathWalk p start (fuel + 1) n = none := by
  have hfind : List.find? (fun q => decide (q.1 = n)) p = none := by
    apply List.find?_eq_none.mpr
    intro q hq
    simp only [decide_eq_true_eq]
    intro heq
    apply hn2
    rw [← heq]
    exact List.mem_map_of_mem Prod.fst hq
  have hl : parentLookup p n = none := by
    unfold parentLookup
    rw [hfind]
    rfl
  simp only [pathWalk, if_neg hn1, hl]

theorem path_to_node_isOk (res : ReachResult) (n : Nat) :
    (path_to_node res n).isOk = true ↔
      (pathWalk res.parent res.start (res.parent.length + 1) n).isSome = true := by
  unfold path_to_node
  rcases h : pathWalk res.parent res.start (res.parent.length + 1) n with _ | pl
  · simp [Except.isOk, Except.toBool]
  · simp [Except.isOk, Except.toBool]

/-- C5: `path_to_node` fails with a NotReachable error exactly when the
target node is outside the reach set returned by `calculate_reach`, and the
tracker's show-path handler (`_on_show_path_to_here`) catches that failure
and presents the empty path ("no known path") instead of crashing. -/
theorem path_to_node_spec (g : WorldGraph) (s : State) (n : Nat) :
    ((path_to_node (calculate_reach g s) n).isOk = true ↔
      n ∈ (calculate_reach g s).nodes) ∧
    (n ∉ (calculate_reach g s).nodes → on_show_path_to_here g s n = []) := by
  obtain ⟨h1, h2, h3⟩ := rinv_reachPass g
    (effectiveLedger s.resources g ((creditStep g s.resources s.node)^[creditFuel g] []))
    s.node
  have e1 : (calculate_reach g s).nodes =
      (reachPassData g (effectiveLedger s.resources g
        ((creditStep g s.resources s.node)^[creditFuel g] [])) s.node).reached := rfl
  have e2 : (calculate_reach g s).parent =
      (reachPassData g (effectiveLedger s.resources g
        ((creditStep g s.resources s.node)^[creditFuel g] [])) s.node).parent := rfl
  have e3 : (calculate_reach g s).start = s.node := rfl
  have h1x : (calculate_reach g s).nodes =
      s.node :: keyList (calculate_reach g s).parent := by
    rw [e1, h1, ← e2]
  have h2x : (s.node :: keyList (calculate_reach g s).parent).Nodup := by
    rw [← h1x, e1]
    exact h2
  have h3x : progressive s.node (calculate_reach g s).parent := by
    rw [e2]
    exact h3
  have hiff : (path_to_node (calculate_reach g s) n).isOk = true ↔
      n ∈ (calculate_reach g s).nodes := by
    rw [path_to_node_isOk, e3, h1x]
    constructor
    · intro hsome
      by_cases hns : n = s.node
      · rw [hns]
        exact List.mem_cons_self _ _
      · by_cases hkey : n ∈ keyList (calculate_reach g s).parent
        · exact List.mem_cons_of_mem _ hkey
        · rw [pathWalk_none_of_not_mem _ _ _ hns hkey] at hsome
          simp at hsome
    · intro hmem
      rcases List.mem_cons.mp hmem with rfl | hkey
      · have hw2 : pathWalk (calculate_reach g s).parent s.node
            ((calculate_reach g s).parent.length + 1) s.node = some [s.node] := by
          simp [pathWalk]
        rw [hw2]
        rfl
      · rcases List.mem_map.mp hkey with ⟨q, hq, hq1⟩
        rcases List.mem_iff_getElem.mp hq with ⟨i, hi, hiq⟩
        have hsome := pathWalk_isSome (calculate_reach g s).parent s.node h2x h3x i hi
          ((calculate_reach g s).parent.length + 1) (by omega)
        rw [hiq, hq1] at hsome
        exact hsome
  refine ⟨hiff, ?_⟩
  intro hnm
  have hnok : ¬(path_to_node (calculate_reach g s) n).isOk = true := fun hok =>
    hnm (hiff.mp hok)
  rcases hp : path_to_node (calculate_reach g s) n with u | pl
  · simp [on_show_path_to_here, hp]
  · exact absurd (by simp [hp, Except.isOk, Except.toBool]) hnok

/-- Witness for C5 at a concrete input: on the scenario graph with node C
removed, node 1 (B) is outside the reach from A with an empty ledger, and
the show-path handler presents the empty path. -/
theorem path_to_node_spec_witness :
    1 ∉ (calculate_reach exGraphNoC exState).nodes ∧
      on_show_path_to_here exGraphNoC exState 1 = [] :=
  ⟨by decide, (path_to_node_spec exGraphNoC exState 1).2 (by decide)⟩

theorem resolveActions_eq_none (g : WorldGraph) :
    ∀ (ids : List String), (∃ i ∈ ids, node_by_identifier g i = none) →
      resolveActions g ids = none
  | [], h => absurd h (by simp)
  | ident :: rest, h => by
      rcases h with ⟨i, hmem, hni⟩
      rcases List.mem_cons.mp hmem with rfl | hmem2
      · rw [resolveActions, hni]
      · rw [resolveActions]
        rcases hh : node_by_identifier g ident with _ | m
        · rfl
        · rw [resolveActions_eq_none g rest ⟨i, hmem2, hni⟩]
          rfl

theorem resolveActions_length (g : WorldGraph) :
    ∀ (ids : List String) (ns : List Nat), resolveActions g ids = some ns →
      ns.length = ids.length
  | [], ns, h => by
      rw [resolveActions] at h
      cases h
      rfl
  | ident :: rest, ns, h => by
      rw [resolveActions] at h
      rcases hh : node_by_identifier g ident with _ | m
      · rw [hh] at h
        cases h
      · rw [hh] at h
        rcases ho : resolveActions g rest with _ | ms
        · rw [ho] at h
          cases h
        · rw [ho] at h
          cases h
          simp [resolveActions_length g rest ms ho]

/-- C4: if any identifier string of a persisted action log fails to resolve
to a node of the current world graph, restoration fails recoverably:
`apply_previous_state` returns `False` with the tracker untouched — no
persisted action has been applied — and `configure` then falls back to a
fresh initial state whose only action is the configuration's initial node. -/
theorem apply_previous_state_not_found (g : WorldGraph) (t : Tracker)
    (ps : PersistedState) (ident : String) (hmem : ident ∈ ps.actions)
    (hnf : node_by_identifier g ident = none) :
    apply_previous_state g t (some ps) = (false, t) ∧
      ∀ initialNode, trackerConfigure g initialNode (some ps) = ⟨[initialNode]⟩ := by
  have hres : resolveActions g ps.actions = none :=
    resolveActions_eq_none g ps.actions ⟨ident, hmem, hnf⟩
  constructor
  · rw [apply_previous_state, hres]
  · intro initialNode
    rw [trackerConfigure, apply_previous_state, hres]
    rfl

/-- Witness for C4 at a concrete input: the identifier string W/A/Zed does
not resolve in the scenario graph, so restoring a log containing it fails
with the tracker untouched, and configuration falls back to the fresh
initial action list. -/
theorem apply_previous_state_not_found_witness :
    apply_previous_state exGraph ⟨[]⟩ (some ⟨["W/A/A", "W/A/Zed"], none⟩) =
        (false, (⟨[]⟩ : Tracker)) ∧
      trackerConfigure exGraph 0 (some ⟨["W/A/A", "W/A/Zed"], none⟩) = ⟨[0]⟩ := by
  have h := apply_previous_state_not_found exGraph ⟨[]⟩ ⟨["W/A/A", "W/A/Zed"], none⟩
    "W/A/Zed" (by simp) (by decide)
  exact ⟨h.1, h.2 0⟩

/-- C10 counterexample: a persisted record whose action log is the empty
list is accepted by `apply_previous_state` (every identifier of the empty
list resolves), so a tracker state with an empty action list is reachable
through initialization — at that point the read of the last action in
`_refresh_for_new_action` is undefined, contradicting the claimed
invariant. -/
theorem tracker_actions_nonempty_cex :
    TrackerReachable exGraph 0 (trackerConfigure exGraph 0 (some ⟨[], none⟩)) ∧
      (trackerConfigure exGraph 0 (some ⟨[], none⟩)).actions = [] :=
  ⟨TrackerReachable.init (some ⟨[], none⟩), rfl⟩

/-- C10 amended: the action list is never empty across every tracker state
reachable through initialization, appending actions, reset, and
button-guarded undo, provided every restored persisted action log is itself
non-empty (as every log written by `persist_current_state` is, since it
persists the action list of such a state). -/
theorem tracker_actions_nonempty (g : WorldGraph) (initialNode : Nat)
    (t : Tracker) (h : TrackerReachableNE g initialNode t) : t.actions ≠ [] := by
  induction h with
  | init previousState hne =>
      rcases previousState with _ | ps
      · simp [trackerConfigure, apply_previous_state, add_new_actions]
      · rcases hres : resolveActions g ps.actions with _ | acts
        · simp [trackerConfigure, apply_previous_state, hres, add_new_actions]
        · have hlen : acts.length = ps.actions.length :=
            resolveActions_length g ps.actions acts hres
          have hane : acts ≠ [] := by
            intro hnil
            apply hne ps rfl
            rw [hnil] at hlen
            exact List.eq_nil_of_length_eq_zero hlen.symm
          simp only [trackerConfigure, apply_previous_state, hres, add_new_actions]
          simpa using hane
  | add t nodes _ ih =>
      simp only [add_new_actions]
      intro hnil
      rcases List.append_eq_nil.mp hnil with ⟨h1, _⟩
      exact ih h1
  | reset t _ ih =>
      rcases ht : t.actions with _ | ⟨a, rest⟩
      · exact absurd ht ih
      · simp [trackerReset, ht]
  | undo t _ henabled ih =>
      simp only [undo_last_action]
      intro hnil
      have := congrArg List.length hnil
      rw [List.length_dropLast] at this
      simp only [undoEnabled, gt_iff_lt, decide_eq_true_eq] at henabled
      simp at this
      omega

/-- Witness for C10 (amended) at a concrete input: the tracker initialized
fresh (no persisted record) has a non-empty action list. -/
theorem tracker_actions_nonempty_witness :
    (trackerConfigure exGraph 0 none).actions ≠ [] :=
  tracker_actions_nonempty exGraph 0 (trackerConfigure exGraph 0 none)
    (TrackerReachableNE.init none fun _ h => Option.noConfusion h)

theorem addResourceGain_apply (r : Nat) :
    ∀ (gain : List (Nat × Nat)) (led : Ledger),
      addResourceGain led gain r = led r + gainAmount gain r
  | [], led => by simp [addResourceGain, gainAmount]
  | p :: rest, led => by
      have hrec := addResourceGain_apply r rest
        (fun x => if x = p.1 then led x + p.2 else led x)
      rw [show addResourceGain led (p :: rest) r =
        addResourceGain (fun x => if x = p.1 then led x + p.2 else led x) rest r from rfl]
      rw [hrec]
      by_cases hpr : p.1 = r
      · rw [if_pos hpr.symm]
        simp [gainAmount, List.filter_cons, hpr]
        omega
      · have hrp : ¬r = p.1 := fun h => hpr h.symm
        rw [if_neg hrp]
        simp [gainAmount, List.filter_cons, hpr]

/-- Total gain of resource `r` over a list of collected nodes. -/
def gainsOfNodes (g : WorldGraph) (ns : List Nat) (r : Nat) : Nat :=
  (ns.map fun n => gainAmount (gainOfNode g n) r).sum

theorem foldl_addResourceGain_apply (g : WorldGraph) (r : Nat) :
    ∀ (ns : List Nat) (led : Ledger),
      (ns.foldl (fun acc n => addResourceGain acc (gainOfNode g n)) led) r =
        led r + gainsOfNodes g ns r
  | [], led => by simp [gainsOfNodes]
  | n :: rest, led => by
      rw [List.foldl_cons, foldl_addResourceGain_apply g r rest _,
        addResourceGain_apply r _ led]
      simp [gainsOfNodes]
      omega

/-- Embedded from the `action.is_resource_node` test of
`TrackerWindow._collected_nodes` (tracker_core.py line 260): a node is a
resource node when the graph lists it among its resource nodes. -/
def is_resource_node (g : WorldGraph) (n : Nat) : Bool :=
  (g.resourceNodes.find? fun rn => rn.node = n).isSome

/-- C7 counterexample: with no starting nodes and the action log visiting
resource node 2 (C) twice, the code's reconstruction credits C's gain of one
unit of resource 0 once (the collected set collapses duplicates), while the
claimed replay — one fold per entry of the action list — credits it twice. -/
theorem replay_fold_cex :
    codeReconstructLedger exGraph emptyLedger [] [2, 2]
        (is_resource_node exGraph) 0 = 1 ∧
      claimReplayLedger exGraph emptyLedger [2, 2] 0 = 2 := by
  constructor
  · rfl
  · rfl

/-- C7 amended: reconstructing the ledger from the action log folds resource
grants once per distinct collected resource node — the set union of the
starting nodes with the resource nodes among the recorded actions — rather
than once per action-list entry: entries that are not resource nodes
contribute nothing, duplicated entries are folded once, and the resulting
ledger adds to the base exactly the summed grants of those distinct
collected nodes. -/
theorem codeReconstruct_eq_sum (g : WorldGraph) (base : Ledger)
    (startingNodes actions : List Nat) (isResourceNode : Nat → Bool) (r : Nat) :
    codeReconstructLedger g base startingNodes actions isResourceNode r =
      base r +
        gainsOfNodes g (collected_nodes startingNodes actions isResourceNode) r :=
  foldl_addResourceGain_apply g r _ base

theorem getD_append_left (h : List State) (x : State) (j : Nat)
    (hj : j < h.length) :
    (h ++ [x]).getD j defaultState = h.getD j defaultState := by
  rw [List.getD_eq_getElem?_getD, List.getD_eq_getElem?_getD,
    List.getElem?_append_left hj]

theorem heapSetNode_getD (h : List State) (s j n : Nat) (hne : s ≠ j) :
    (heapSetNode h s n).getD j defaultState = h.getD j defaultState := by
  unfold heapSetNode
  rw [List.getD_eq_getElem?_getD, List.getElem?_set_ne hne,
    List.getD_eq_getElem?_getD]

theorem heapAddGain_getD (h : List State) (s j : Nat)
    (gain : List (Nat × Nat)) (hne : s ≠ j) :
    (heapAddGain h s gain).getD j defaultState = h.getD j defaultState := by
  unfold heapAddGain
  rw [List.getD_eq_getElem?_getD, List.getElem?_set_ne hne,
    List.getD_eq_getElem?_getD]

theorem foldl_heapAddGain_getD (s j : Nat) (hne : s ≠ j) :
    ∀ (gains : List (List (Nat × Nat))) (acc : List State),
      (gains.foldl (fun acc2 gn => heapAddGain acc2 s gn) acc).getD j defaultState =
        acc.getD j defaultState
  | [], _ => rfl
  | gn :: rest, acc => by
      rw [List.foldl_cons, foldl_heapAddGain_getD s j hne rest _,
        heapAddGain_getD acc s j gn hne]

/-- C6: `copy(state)` yields an independent deep copy — in the heap model,
`state_for_current_configuration` allocates a fresh cell for the copy of the
initial state and performs all of its mutations (moving to the last action's
node, component fills, pickup additions, collected resource-node gains) on
that fresh cell, so the original initial state's cell, with its node and its
ledger, is unchanged. -/
theorem state_for_current_configuration_frame (h : List State) (initialRef : Nat)
    (actions : List Nat)
    (componentGains pickupGains collectedGains : List (List (Nat × Nat)))
    (hlt : initialRef < h.length) :
    ((state_for_current_configuration h initialRef actions componentGains
        pickupGains collectedGains).1).getD initialRef defaultState =
        h.getD initialRef defaultState ∧
      (state_for_current_configuration h initialRef actions componentGains
        pickupGains collectedGains).2 ≠ initialRef := by
  have hne : h.length ≠ initialRef := by omega
  constructor
  · have e : (state_for_current_configuration h initialRef actions componentGains
        pickupGains collectedGains).1 =
        collectedGains.foldl (fun acc gn => heapAddGain acc h.length gn)
          (pickupGains.foldl (fun acc gn => heapAddGain acc h.length gn)
            (componentGains.foldl (fun acc gn => heapAddGain acc h.length gn)
              (match actions.getLast? with
                | some n => heapSetNode (h ++ [h.getD initialRef defaultState]) h.length n
                | none => h ++ [h.getD initialRef defaultState]))) := rfl
    rw [e, foldl_heapAddGain_getD _ _ hne, foldl_heapAddGain_getD _ _ hne,
      foldl_heapAddGain_getD _ _ hne]
    rcases hLast : actions.getLast? with _ | n
    · exact getD_append_left h _ initialRef hlt
    · rw [heapSetNode_getD _ _ _ _ hne]
      exact getD_append_left h _ initialRef hlt
  · show h.length ≠ initialRef
    exact hne

/-- Witness for C6 at a concrete input: a one-cell heap holding the initial
state; after building the state for the current configuration with an
action, a component fill, a pickup and a collected gain, the initial cell is
unchanged and the returned reference is a different cell. -/
theorem state_for_current_configuration_frame_witness :
    (0 : Nat) < ([defaultState] : List State).length ∧
      ((state_for_current_configuration [defaultState] 0 [2] [[(1, 1)]]
          [[(0, 1)]] [[(0, 1)]]).1).getD 0 defaultState =
        ([defaultState] : List State).getD 0 defaultState ∧
      (state_for_current_configuration [defaultState] 0 [2] [[(1, 1)]]
          [[(0, 1)]] [[(0, 1)]]).2 ≠ 0 := by
  refine ⟨by decide, ?_, ?_⟩
  · exact (state_for_current_configuration_frame [defaultState] 0 [2] [[(1, 1)]]
      [[(0, 1)]] [[(0, 1)]] (by decide)).1
  · exact (state_for_current_configuration_frame [defaultState] 0 [2] [[(1, 1)]]
      [[(0, 1)]] [[(0, 1)]] (by decide)).2

theorem find_by_string :
    ∀ (l : List (Nat × String)), (l.map Prod.snd).Nodup →
      ∀ q ∈ l, l.find? (fun e => e.2 = q.2) = some q
  | [], _, q, hq => absurd hq (List.not_mem_nil q)
  | a :: rest, hnd, q, hq => by
      have hx : (a.2 :: rest.map Prod.snd).Nodup := hnd
      have hnd1 : a.2 ∉ rest.map Prod.snd := (List.nodup_cons.mp hx).1
      have hnd2 : (rest.map Prod.snd).Nodup := (List.nodup_cons.mp hx).2
      rcases List.mem_cons.mp hq with rfl | hq2
      · rw [List.find?_cons_of_pos _ (by simp)]
      · have hne : ¬a.2 = q.2 := by
          intro he
          apply hnd1
          rw [he]
          exact List.mem_map_of_mem Prod.snd hq2
        rw [List.find?_cons_of_neg _ (by simpa using hne)]
        exact find_by_string rest hnd2 q hq2

theorem node_by_identifier_identOf (g : WorldGraph)
    (hstr : (g.idents.map Prod.snd).Nodup) (n : Nat)
    (hn : n ∈ g.idents.map Prod.fst) :
    node_by_identifier g (identOf g n) = some n := by
  rcases hfs : g.idents.find? (fun q => q.1 = n) with _ | q
  · exfalso
    rcases List.mem_map.mp hn with ⟨q, hq, hq1⟩
    have : (g.idents.find? fun q2 => q2.1 = n).isSome :=
      List.find?_isSome.mpr ⟨q, hq, by simpa using hq1⟩
    rw [hfs] at this
    simp at this
  · have hqmem := List.mem_of_find?_eq_some hfs
    have hq1 : q.1 = n := by simpa using List.find?_some hfs
    have hid : identOf g n = q.2 := by
      unfold identOf
      rw [hfs]
      rfl
    rw [hid]
    unfold node_by_identifier
    rw [find_by_string g.idents hstr q hqmem]
    simpa using hq1

theorem resolve_persist_aux (g : WorldGraph)
    (hstr : (g.idents.map Prod.snd).Nodup) :
    ∀ (ns : List Nat), (∀ n ∈ ns, n ∈ g.idents.map Prod.fst) →
      resolveActions g (ns.map fun n => identOf g n) = some ns
  | [], _ => rfl
  | n :: rest, hmem => by
      rw [List.map_cons, resolveActions,
        node_by_identifier_identOf g hstr n (hmem n (List.mem_cons_self _ _)),
        resolve_persist_aux g hstr rest
          fun m hm => hmem m (List.mem_cons_of_mem _ hm)]
      rfl

/-- C9: persist/restore round-trip — persisting every action of the tracker
as its node-identifier string and resolving the strings back through
`node_by_identifier` under the same configuration yields the same ordered
action list, provided every action is a node of the current world graph and
the graph's identifier strings are duplicate-free. -/
theorem persist_restore_roundtrip (g : WorldGraph) (t : Tracker)
    (hmem : ∀ n ∈ t.actions, n ∈ g.idents.map Prod.fst)
    (hstr : (g.idents.map Prod.snd).Nodup) :
    resolveActions g (persist_current_state g t) = some t.actions :=
  resolve_persist_aux g hstr t.actions hmem

/-- Witness for C9 at a concrete input: persisting the action list visiting
nodes 0 and 1 of the scenario graph and restoring it yields the same list. -/
theorem persist_restore_roundtrip_witness :
    resolveActions exGraph (persist_current_state exGraph ⟨[0, 1]⟩) =
      some [0, 1] :=
  persist_restore_roundtrip exGraph ⟨[0, 1]⟩ (by decide) (by decide)
